import Mathlib

/-!
# Verification of the credit-card churn preprocessing pipeline

Shallow embedding of `notebooks/02_data_cleaning_preprocessing.ipynb`:
column pruning, target encoding, label encoding of categorical columns,
stratified train/test split (sklearn `train_test_split` with
`stratify=y`), standard scaling fit on the train partition, and CSV
persistence.  Numbers are modelled as rationals; the square root used
by `StandardScaler` is passed in as an abstract function `sq : ℚ → ℚ`
since no claim depends on its values beyond `sq 0 = 0`; the pseudo-random
permutations drawn from `random_state=42` are passed in as an abstract
function `rng : List ℕ → List ℕ` assumed to permute its input.
-/

namespace Churn

/-- A pandas column holds either object (string) data or numeric data.
The constructor is the dtype: `strs` is dtype `object`, `nums` covers
`int64`/`float64`. -/
inductive ColData where
  | strs : List String → ColData
  | nums : List ℚ → ColData
deriving DecidableEq, Repr

/-- A named column of a DataFrame. -/
structure Col where
  name : String
  data : ColData
deriving DecidableEq, Repr

/-- A pandas DataFrame, column-oriented. -/
abbrev Frame := List Col

/-- Column names of a frame, i.e. the header row written by `to_csv`. -/
def colNames (f : Frame) : List String := f.map Col.name

/-- Python `str.strip()`: remove leading and trailing whitespace.  (Our own
character-list implementation; `String.trim` is equivalent but does not
reduce inside the kernel.) -/
def stripStr (s : String) : String :=
  String.mk (((s.data.dropWhile (fun ch => ch.isWhitespace)).reverse.dropWhile
    (fun ch => ch.isWhitespace)).reverse)

/-- Step 2: `df.columns = df.columns.str.strip()`. -/
def stripHeader (f : Frame) : Frame :=
  f.map (fun c => { c with name := stripStr c.name })

/-- Step 3, `df.drop(columns=[...])` with the default `errors="raise"`:
a `KeyError` if any listed label is absent, otherwise the frame with
every column bearing a listed name removed and all other columns
untouched. -/
def keepPred (names : List String) (c : Col) : Bool :=
  ¬ names.contains c.name

def dropColumns (f : Frame) (names : List String) : Except String Frame :=
  if names.all (fun n => (colNames f).contains n) then
    .ok (f.filter (keepPred names))
  else
    .error "KeyError: labels not found in axis"

/-- The target-encoding lambda:
`lambda x: 1 if x == "Attrited Customer" else 0`. -/
def encodeTargetVal (x : String) : ℕ :=
  if x = "Attrited Customer" then 1 else 0

end Churn

namespace Churn

/-- The kept part of a frame after dropping `names`. -/
def keptCols (f : Frame) (names : List String) : Frame :=
  f.filter (keepPred names)

lemma keepPred_eq_true {names : List String} {c : Col} (h : c.name ∉ names) :
    keepPred names c = true := by simp [keepPred, h]

lemma keepPred_eq_false {names : List String} {c : Col} (h : c.name ∈ names) :
    keepPred names c = false := by simp [keepPred, h]

lemma name_not_mem_of_mem_keptCols {f : Frame} {names : List String} {c : Col}
    (h : c ∈ keptCols f names) : c.name ∉ names := by
  have hp := List.of_mem_filter h
  simp [keepPred] at hp
  exact hp

lemma dropColumns_eq_error (f : Frame) (names : List String)
    (h : ∃ n ∈ names, n ∉ colNames f) :
    dropColumns f names = .error "KeyError: labels not found in axis" := by
  obtain ⟨n, hn, hmem⟩ := h
  unfold dropColumns
  rw [if_neg]
  intro hall
  exact hmem (by simpa using (List.all_eq_true.mp hall n hn))

lemma dropColumns_eq_ok (f : Frame) (names : List String)
    (h : ∀ n ∈ names, n ∈ colNames f) :
    dropColumns f names = .ok (keptCols f names) := by
  unfold dropColumns keptCols
  rw [if_pos]
  exact List.all_eq_true.mpr (fun n hn => by simpa using h n hn)

lemma keptCols_sublist (f : Frame) (names : List String) :
    (keptCols f names).Sublist f :=
  List.filter_sublist f

lemma not_mem_colNames_keptCols (f : Frame) (names : List String)
    (n : String) (hn : n ∈ names) : n ∉ colNames (keptCols f names) := by
  intro hmem
  obtain ⟨c, hc, hcn⟩ := List.mem_map.mp hmem
  exact name_not_mem_of_mem_keptCols hc (hcn ▸ hn)

lemma count_keptCols (f : Frame) (names : List String)
    (c : Col) (hc : c.name ∉ names) :
    (keptCols f names).count c = f.count c := by
  unfold keptCols
  induction f with
  | nil => rfl
  | cons a as ih =>
    by_cases ha : a.name ∈ names
    · have hne : (a == c) = false := by
        simp only [beq_eq_false_iff_ne]
        intro he
        exact hc (he ▸ ha)
      simp [List.filter_cons, keepPred_eq_false ha, List.count_cons, ih, hne]
    · simp [List.filter_cons, keepPred_eq_true ha, List.count_cons, ih]

/-- A small concrete frame used to instantiate hypothesized theorems. -/
def demoFrame : Frame :=
  [⟨"CLIENTNUM", .nums [768805383]⟩, ⟨"Customer_Age", .nums [45]⟩]

/-- Claim C7: column pruning raises a fatal error when any named column
is absent from the table; when all named columns are present it returns
the table with exactly those columns removed (no dropped name survives)
and every other column, with all of its rows, unchanged (the result is
a sublist of the input and the multiplicity of every kept column is
preserved). -/
theorem drop_columns_spec (f : Frame) (names : List String) :
    ((∃ n ∈ names, n ∉ colNames f) →
      dropColumns f names = .error "KeyError: labels not found in axis") ∧
    ((∀ n ∈ names, n ∈ colNames f) →
      dropColumns f names = .ok (keptCols f names) ∧
      (keptCols f names).Sublist f ∧
      (∀ n ∈ names, n ∉ colNames (keptCols f names)) ∧
      (∀ c : Col, c.name ∉ names → (keptCols f names).count c = f.count c)) :=
  ⟨fun h => dropColumns_eq_error f names h,
   fun h => ⟨dropColumns_eq_ok f names h, keptCols_sublist f names,
     fun n hn => not_mem_colNames_keptCols f names n hn,
     fun c hc => count_keptCols f names c hc⟩⟩

/-- Witness for C7: the error case on a missing column and the success
case on a present column, at concrete inputs. -/
theorem drop_columns_spec_witness :
    dropColumns demoFrame ["Avg_Utilization_Ratio"] =
      .error "KeyError: labels not found in axis" ∧
    dropColumns demoFrame ["CLIENTNUM"] =
      .ok [⟨"Customer_Age", .nums [45]⟩] := by
  constructor
  · exact (drop_columns_spec demoFrame ["Avg_Utilization_Ratio"]).1
      (by decide)
  · have h := ((drop_columns_spec demoFrame ["CLIENTNUM"]).2 (by decide)).1
    rw [h]
    rfl

/-- Claim C5 helper: a value distinct from the positive literal. -/
def unseenLabel : String := "Platinum Member"

/-- Claim C5: target encoding is a total function with no error path:
exactly the literal `"Attrited Customer"` maps to `1`, and every other
value of the target column, including values never seen before, maps
to `0`. -/
theorem target_encoding_total :
    encodeTargetVal "Attrited Customer" = 1 ∧
    (∀ x : String, x ≠ "Attrited Customer" → encodeTargetVal x = 0) ∧
    (∀ x : String, encodeTargetVal x = 0 ∨ encodeTargetVal x = 1) := by
  refine ⟨rfl, fun x hx => ?_, fun x => ?_⟩
  · simp [encodeTargetVal, hx]
  · unfold encodeTargetVal
    split <;> simp

/-- Witness for C5 at the concrete unseen label. -/
theorem target_encoding_total_witness :
    unseenLabel ≠ "Attrited Customer" ∧ encodeTargetVal unseenLabel = 0 :=
  ⟨by decide, target_encoding_total.2.1 unseenLabel (by decide)⟩

/-- Numpy `np.unique` as used by `LabelEncoder.fit`: the distinct observed
values in sorted order. -/
def npUnique {α : Type} [LinearOrder α] [DecidableEq α] (xs : List α) :
    List α :=
  List.insertionSort (· ≤ ·) xs.dedup

/-- The integer code a `LabelEncoder` fitted on the full column `xs`
assigns to the value `v`: its position among the sorted distinct
values. -/
def leCode {α : Type} [LinearOrder α] [DecidableEq α] (xs : List α)
    (v : α) : ℕ :=
  (npUnique xs).indexOf v

/-- Sklearn `LabelEncoder().fit_transform(xs)`: every value replaced by its
code in the vocabulary built from the whole of `xs`. -/
def leFitTransform {α : Type} [LinearOrder α] [DecidableEq α]
    (xs : List α) : List ℕ :=
  xs.map (leCode xs)

section LabelEncoderLemmas

variable {α : Type} [LinearOrder α] [DecidableEq α]

lemma npUnique_perm_dedup (xs : List α) :
    List.Perm (npUnique xs) xs.dedup :=
  List.perm_insertionSort _ _

lemma npUnique_nodup (xs : List α) : (npUnique xs).Nodup :=
  ((npUnique_perm_dedup xs).nodup_iff).mpr (List.nodup_dedup xs)

lemma mem_npUnique {xs : List α} {a : α} : a ∈ npUnique xs ↔ a ∈ xs := by
  rw [(npUnique_perm_dedup xs).mem_iff, List.mem_dedup]

lemma npUnique_sorted (xs : List α) :
    List.Sorted (· ≤ ·) (npUnique xs) :=
  List.sorted_insertionSort _ _

/-- The sorted distinct vocabulary is determined by the set of observed
values alone. -/
lemma npUnique_eq_of_mem_iff {xs ys : List α}
    (h : ∀ a, a ∈ xs ↔ a ∈ ys) : npUnique xs = npUnique ys := by
  have hperm : List.Perm (npUnique xs) (npUnique ys) := by
    apply List.perm_of_nodup_nodup_toFinset_eq (npUnique_nodup xs)
      (npUnique_nodup ys)
    ext a
    simp [List.mem_toFinset, mem_npUnique, h a]
  exact List.eq_of_perm_of_sorted hperm (npUnique_sorted xs)
    (npUnique_sorted ys)

end LabelEncoderLemmas

/-- Claim C6: categorical encoding builds its vocabulary from the full
column and maps each distinct observed value to a unique integer code
in `[0, k-1]` (`k` the number of distinct values): every observed
value's code is below `k`, distinct values receive distinct codes,
every code below `k` is the code of some observed value, and the code
assignment depends only on the set of observed values, so the same set
of input values always yields the same assignment. -/
theorem label_encoding_spec {α : Type} [LinearOrder α] [DecidableEq α]
    (xs : List α) :
    (∀ v ∈ xs, leCode xs v < (npUnique xs).length) ∧
    (∀ v ∈ xs, ∀ w ∈ xs, leCode xs v = leCode xs w → v = w) ∧
    (∀ i < (npUnique xs).length, ∃ v ∈ xs, leCode xs v = i) ∧
    (∀ ys : List α, (∀ a, a ∈ xs ↔ a ∈ ys) →
      (∀ v, leCode xs v = leCode ys v) ∧
      leFitTransform xs = xs.map (leCode ys)) := by
  refine ⟨fun v hv => ?_, fun v hv w hw he => ?_, fun i hi => ?_,
    fun ys hmem => ?_⟩
  · exact List.indexOf_lt_length.mpr (mem_npUnique.mpr hv)
  · exact (List.indexOf_inj (mem_npUnique.mpr hv)
      (mem_npUnique.mpr hw)).mp he
  · refine ⟨(npUnique xs).get ⟨i, hi⟩, ?_, ?_⟩
    · exact mem_npUnique.mp (List.get_mem _ _ _)
    · exact List.get_indexOf (npUnique_nodup xs) ⟨i, hi⟩
  · have hvocab := npUnique_eq_of_mem_iff hmem
    have hcode : ∀ v, leCode xs v = leCode ys v := fun v => by
      unfold leCode
      rw [hvocab]
    exact ⟨hcode, by
      unfold leFitTransform
      exact List.map_congr_left (fun v _ => hcode v)⟩

/-- The vocabulary of the demo card-tier column: distinct values in
sorted order.  (String order does not reduce in the kernel, so the
comparisons are discharged through the character lists.) -/
lemma npUnique_demo :
    npUnique ["Blue", "Gold", "Blue", "Silver"] =
      ["Blue", "Gold", "Silver"] := by
  have hd : ["Blue", "Gold", "Blue", "Silver"].dedup =
      ["Gold", "Blue", "Silver"] := by decide
  unfold npUnique
  rw [hd]
  simp [List.insertionSort, List.orderedInsert]
  decide

/-- Witness for C6 at a concrete column: codes for
`["Blue", "Gold", "Blue", "Silver"]` are drawn from `{0, 1, 2}` and a
reordered column with the same value set gets the same code for
`"Gold"`. -/
theorem label_encoding_spec_witness :
    leCode ["Blue", "Gold", "Blue", "Silver"] "Gold" < 3 ∧
    leFitTransform ["Blue", "Gold", "Blue", "Silver"] = [0, 1, 0, 2] ∧
    leCode ["Silver", "Blue", "Gold", "Gold"] "Gold" =
      leCode ["Blue", "Gold", "Blue", "Silver"] "Gold" := by
  have hlen : (npUnique ["Blue", "Gold", "Blue", "Silver"]).length = 3 :=
    by rw [npUnique_demo]; rfl
  refine ⟨?_, ?_, ?_⟩
  · have h := (label_encoding_spec
      ["Blue", "Gold", "Blue", "Silver"]).1 "Gold" (by decide)
    rwa [hlen] at h
  · unfold leFitTransform leCode
    rw [npUnique_demo]
    decide
  · have h := ((label_encoding_spec
      ["Blue", "Gold", "Blue", "Silver"]).2.2.2
      ["Silver", "Blue", "Gold", "Gold"]
      (by intro a; simp; tauto)).1 "Gold"
    exact h.symm

/-- Step 5 of the notebook: label-encode every object-dtype column,
fitting each encoder on the full (pre-split) column. -/
def encodeCategoricals (f : Frame) : Frame :=
  f.map (fun c =>
    match c.data with
    | .strs vs => ⟨c.name, .nums ((leFitTransform vs).map (fun k => (k : ℚ)))⟩
    | .nums _ => c)

/-- Mean of a column of rationals (`0` for an empty column by the
division convention; the pipeline never scales an empty partition). -/
def listMean (xs : List ℚ) : ℚ := xs.sum / xs.length

/-- Population variance (`ddof = 0`), as `StandardScaler` computes it. -/
def listVar (xs : List ℚ) : ℚ :=
  (xs.map (fun x => (x - listMean xs) ^ 2)).sum / xs.length

/-- Sklearn `_handle_zeros_in_scale`: a zero scale
is replaced by one so constant columns do not divide by zero. -/
def handleZeros (s : ℚ) : ℚ := if s = 0 then 1 else s

/-- The state of a fitted `StandardScaler`. -/
structure Scaler where
  mean : ℚ
  scale : ℚ
deriving DecidableEq, Repr

/-- Sklearn `StandardScaler.fit`.  Here `sq` abstracts `np.sqrt`; no claim depends
on its values beyond `sq 0 = 0`. -/
def scalerFit (sq : ℚ → ℚ) (xs : List ℚ) : Scaler :=
  { mean := listMean xs, scale := handleZeros (sq (listVar xs)) }

/-- Sklearn `StandardScaler.transform` with an already fitted state. -/
def scalerTransform (st : Scaler) (xs : List ℚ) : List ℚ :=
  xs.map (fun x => (x - st.mean) / st.scale)

/-- Sklearn `StandardScaler.fit_transform`. -/
def scalerFitTransform (sq : ℚ → ℚ) (xs : List ℚ) : List ℚ :=
  scalerTransform (scalerFit sq xs) xs

/-- dtype of a column is numeric (`select_dtypes(include=["float64",
"int64"])` keeps it). -/
def ColData.isNum : ColData → Bool
  | .strs _ => false
  | .nums _ => true

/-- The selection `X.select_dtypes(include=["float64", "int64"]).columns.tolist()`. -/
def numericCols (f : Frame) : List String :=
  (f.filter (fun c => c.data.isNum)).map Col.name

/-- The values of the first column named `n` (empty if absent or
non-numeric). -/
def colValues (f : Frame) (n : String) : List ℚ :=
  match f.find? (fun c => c.name == n) with
  | some ⟨_, .nums vs⟩ => vs
  | _ => []

/-- Step 7, train side:
`X_train[numeric_cols] = scaler.fit_transform(X_train[numeric_cols])`. -/
def scaleTrain (sq : ℚ → ℚ) (names : List String) (xtr : Frame) : Frame :=
  xtr.map (fun c =>
    if names.contains c.name then
      match c.data with
      | .nums vs => ⟨c.name, .nums (scalerFitTransform sq vs)⟩
      | .strs _ => c
    else c)

/-- Step 7, test side:
`X_test[numeric_cols] = scaler.transform(X_test[numeric_cols])`, the
scaler still carrying the statistics fitted on the train partition. -/
def scaleTest (sq : ℚ → ℚ) (names : List String) (xtr xte : Frame) :
    Frame :=
  xte.map (fun c =>
    if names.contains c.name then
      match c.data with
      | .nums vs =>
        ⟨c.name, .nums (scalerTransform (scalerFit sq (colValues xtr c.name)) vs)⟩
      | .strs _ => c
    else c)

/-- Claim C2: the scaler statistics come from the train partition only.
List level: fit-transform on a train column and transform of a test
column both apply `x ↦ (x - mean)/std` with the mean and std of the
train column (never refit on test).  Frame level: every numeric test
column is transformed with the statistics of the train column of the
same name, every numeric train column with its own statistics; and
after categorical encoding every column has numeric dtype, so the
numeric-column selection at scaling time is every column, including the
integer-encoded categoricals. -/
theorem scaling_train_only_spec (sq : ℚ → ℚ) :
    (∀ xs ys : List ℚ,
      scalerFitTransform sq xs =
        xs.map (fun x => (x - listMean xs) / handleZeros (sq (listVar xs))) ∧
      scalerTransform (scalerFit sq xs) ys =
        ys.map (fun y => (y - listMean xs) / handleZeros (sq (listVar xs)))) ∧
    (∀ (names : List String) (xtr xte : Frame) (c : Col) (vs : List ℚ),
      c ∈ xte → names.contains c.name = true → c.data = .nums vs →
      (⟨c.name, .nums (vs.map (fun y =>
          (y - listMean (colValues xtr c.name)) /
            handleZeros (sq (listVar (colValues xtr c.name)))))⟩ : Col) ∈
        scaleTest sq names xtr xte) ∧
    (∀ (names : List String) (xtr : Frame) (c : Col) (vs : List ℚ),
      c ∈ xtr → names.contains c.name = true → c.data = .nums vs →
      (⟨c.name, .nums (vs.map (fun x =>
          (x - listMean vs) / handleZeros (sq (listVar vs))))⟩ : Col) ∈
        scaleTrain sq names xtr) ∧
    (∀ f : Frame, numericCols (encodeCategoricals f) =
      colNames (encodeCategoricals f)) := by
  refine ⟨fun xs ys => ⟨rfl, rfl⟩, ?_, ?_, ?_⟩
  · intro names xtr xte c vs hc hn hd
    refine List.mem_map.mpr ⟨c, hc, ?_⟩
    obtain ⟨nm, d⟩ := c
    simp only at hd hn
    subst hd
    simp [hn, scalerTransform, scalerFit]
    intro h
    exact absurd (by simpa using hn) h
  · intro names xtr c vs hc hn hd
    refine List.mem_map.mpr ⟨c, hc, ?_⟩
    obtain ⟨nm, d⟩ := c
    simp only at hd hn
    subst hd
    simp [hn, scalerFitTransform, scalerTransform, scalerFit]
    intro h
    exact absurd (by simpa using hn) h
  · intro f
    induction f with
    | nil => rfl
    | cons a as ih =>
      obtain ⟨nm, d⟩ := a
      cases d with
      | strs vs =>
        simpa [encodeCategoricals, numericCols, colNames,
          List.filter_cons, ColData.isNum] using
          congrArg (List.cons nm) (by
            simpa [encodeCategoricals, numericCols, colNames] using ih)
      | nums vs =>
        simpa [encodeCategoricals, numericCols, colNames,
          List.filter_cons, ColData.isNum] using
          congrArg (List.cons nm) (by
            simpa [encodeCategoricals, numericCols, colNames] using ih)

/-- Witness for C2 at concrete one-column frames, with `sq = id`:
the test column `[2]` is standardised with the mean and variance of
the train column `[1, 3]`, and a one-column frame with an encoded
categorical column has every column selected as numeric. -/
theorem scaling_train_only_spec_witness :
    ((⟨"a", .nums ([2].map (fun y =>
        (y - listMean (colValues [⟨"a", .nums [1, 3]⟩] "a")) /
          handleZeros (id (listVar (colValues [⟨"a", .nums [1, 3]⟩] "a")))))⟩ :
      Col) ∈
      scaleTest id ["a"] [⟨"a", .nums [1, 3]⟩] [⟨"a", .nums [2]⟩]) ∧
    numericCols (encodeCategoricals [⟨"Gender", .strs ["F", "M"]⟩]) =
      colNames (encodeCategoricals [⟨"Gender", .strs ["F", "M"]⟩]) ∧
    scaleTest id ["a"] [⟨"a", .nums [1, 3]⟩] [⟨"a", .nums [2]⟩] =
      [⟨"a", .nums [0]⟩] := by
  refine ⟨?_, ?_, ?_⟩
  · exact (scaling_train_only_spec id).2.1 ["a"]
      [⟨"a", .nums [1, 3]⟩] [⟨"a", .nums [2]⟩] ⟨"a", .nums [2]⟩ [2]
      (by simp) (by decide) rfl
  · exact (scaling_train_only_spec id).2.2.2
      [⟨"Gender", .strs ["F", "M"]⟩]
  · simp [scaleTest, scalerTransform, scalerFit, colValues, listMean,
      listVar, handleZeros]
    norm_num

/-- Claim C10: a numeric column with zero variance in the train
partition does not divide by zero: the fitted scale is the unit scale,
every train value becomes `0`, and every test value becomes
`x - train_mean`. -/
theorem zero_variance_spec (sq : ℚ → ℚ) (hsq : sq 0 = 0)
    (xs ys : List ℚ) (m : ℚ) (hne : xs ≠ []) (hconst : ∀ x ∈ xs, x = m) :
    (scalerFit sq xs).scale = 1 ∧
    scalerFitTransform sq xs = xs.map (fun _ => 0) ∧
    scalerTransform (scalerFit sq xs) ys = ys.map (fun y => y - m) := by
  have hlen : (xs.length : ℚ) ≠ 0 :=
    Nat.cast_ne_zero.mpr (List.length_pos.mpr hne).ne'
  have hmean : listMean xs = m := by
    unfold listMean
    rw [List.sum_eq_card_nsmul xs m hconst, nsmul_eq_mul]
    exact mul_div_cancel_left₀ m hlen
  have hvar : listVar xs = 0 := by
    unfold listVar
    rw [List.sum_eq_zero, zero_div]
    intro x hx
    obtain ⟨y, hy, hxy⟩ := List.mem_map.mp hx
    rw [← hxy, hmean, hconst y hy]
    ring
  have hscale : (scalerFit sq xs).scale = 1 := by
    simp [scalerFit, hvar, hsq, handleZeros]
  refine ⟨hscale, ?_, ?_⟩
  · unfold scalerFitTransform scalerTransform
    refine List.map_congr_left (fun x hx => ?_)
    rw [show (scalerFit sq xs).mean = listMean xs from rfl, hscale,
      hmean, hconst x hx]
    ring
  · unfold scalerTransform
    refine List.map_congr_left (fun y _ => ?_)
    rw [show (scalerFit sq xs).mean = listMean xs from rfl, hscale,
      hmean]
    ring

/-- Witness for C10: the constant train column `[3, 3]` (zero
variance) gets unit scale, is mapped to zeros, and shifts the test
column `[7]` by the train mean. -/
theorem zero_variance_spec_witness :
    (scalerFit (fun _ => 0) [3, 3]).scale = 1 ∧
    scalerFitTransform (fun _ => 0) [3, 3] = [(3 : ℚ), 3].map (fun _ => 0) ∧
    scalerTransform (scalerFit (fun _ => 0) [3, 3]) [7] =
      [(7 : ℚ)].map (fun y => y - 3) :=
  zero_variance_spec (fun _ => 0) rfl [3, 3] [7] 3 (by decide) (by decide)

/-! ## The stratified shuffle split

`train_test_split(X, y, test_size=0.2, stratify=y, random_state=42)`
delegates to `StratifiedShuffleSplit`.  `_validate_shuffle_split`
yields `n_test = ceil(0.2 * n)` and `n_train = n - n_test`; the per
class allocation is `_approximate_mode`. -/

/-- The count `n_test = ceil(test_size * n_samples)` with `test_size = 0.2`
(binary64 rounding of `0.2 * n` is ignored; it does not affect the
inputs considered here). -/
def nTestOf (n : ℕ) : ℕ := (n + 4) / 5

/-- The count `n_train = n_samples - n_test`. -/
def nTrainOf (n : ℕ) : ℕ := n - nTestOf n

/-- Order on `(class position, remainder)` pairs: larger remainder
first, ties broken by class position (stable sort keeps the earlier
class first; sklearn breaks ties with the RNG, but the inputs under
study have no ties). -/
def remGE (p q : ℕ × ℕ) : Prop := q.2 ≤ p.2

instance : DecidableRel remGE := fun p q => Nat.decLe q.2 p.2

instance : IsTotal (ℕ × ℕ) remGE :=
  ⟨fun p q => (le_total q.2 p.2).imp id id⟩

instance : IsTrans (ℕ × ℕ) remGE :=
  ⟨fun _ _ _ hab hbc => le_trans hbc hab⟩

/-- Add `1` to the entries of `floored` whose position (starting at
`i`) is listed in `chosen`. -/
def applyExtras (floored : List ℕ) (chosen : List ℕ) (i : ℕ) : List ℕ :=
  match floored with
  | [] => []
  | v :: vs =>
    (v + if chosen.contains i then 1 else 0) :: applyExtras vs chosen (i + 1)

/-- Sklearn `_approximate_mode(class_counts, n_draws, rng)`:
floor of the proportional allocation per class, then one extra draw for
each of the classes with the largest remainders until `n_draws` is
reached. -/
def approximateMode (counts : List ℕ) (nDraws : ℕ) : List ℕ :=
  let total := counts.sum
  let floored := counts.map (fun c => c * nDraws / total)
  let rems := counts.map (fun c => c * nDraws % total)
  let need := nDraws - floored.sum
  let chosen := ((List.insertionSort remGE rems.enum).take need).map Prod.fst
  applyExtras floored chosen 0

/-- Within `StratifiedShuffleSplit._iter_indices`: per-class train counts from
`_approximate_mode(class_counts, n_train)`, per-class test counts from
`_approximate_mode(class_counts - n_train_counts, n_test)`. -/
def splitCounts (counts : List ℕ) (nTrain nTest : ℕ) : List ℕ × List ℕ :=
  let trC := approximateMode counts nTrain
  (trC, approximateMode (List.zipWith (· - ·) counts trC) nTest)

lemma applyExtras_nil (chosen : List ℕ) (i : ℕ) :
    applyExtras [] chosen i = [] := rfl

lemma applyExtras_length (floored chosen : List ℕ) (i : ℕ) :
    (applyExtras floored chosen i).length = floored.length := by
  induction floored generalizing i with
  | nil => rfl
  | cons v vs ih => simp [applyExtras, ih]

lemma applyExtras_empty (floored : List ℕ) (i : ℕ) :
    applyExtras floored [] i = floored := by
  induction floored generalizing i with
  | nil => rfl
  | cons v vs ih => simp [applyExtras, ih]

lemma approximateMode_length (counts : List ℕ) (d : ℕ) :
    (approximateMode counts d).length = counts.length := by
  unfold approximateMode
  rw [applyExtras_length, List.length_map]

/-- When the draw count is exactly the total, every class keeps its
full count (the case of the test-side allocation, whose input counts
sum to `n_test`). -/
lemma approximateMode_self (counts : List ℕ) (d : ℕ)
    (h : counts.sum = d) : approximateMode counts d = counts := by
  have hfl : counts.map (fun c => c * d / counts.sum) = counts := by
    rcases Nat.eq_zero_or_pos d with hd | hd
    · subst hd
      have hall : ∀ c ∈ counts, c = 0 := fun c hc =>
        List.sum_eq_zero_iff.mp h c hc
      refine (List.map_congr_left fun c hc => ?_).trans (List.map_id _)
      rw [hall c hc]
      simp
    · refine (List.map_congr_left fun c hc => ?_).trans (List.map_id _)
      rw [h]
      exact Nat.mul_div_cancel c hd
  simp only [approximateMode]
  rw [hfl, h, Nat.sub_self]
  simp [applyExtras_empty]

lemma sum_div_add_mod (l : List ℕ) (d t : ℕ) :
    t * (l.map (fun c => c * d / t)).sum +
      (l.map (fun c => c * d % t)).sum = d * l.sum := by
  induction l with
  | nil => simp
  | cons c cs ih =>
    simp only [List.map_cons, List.sum_cons]
    have hdm := Nat.div_add_mod (c * d) t
    calc t * (c * d / t + (cs.map (fun c => c * d / t)).sum) +
          (c * d % t + (cs.map (fun c => c * d % t)).sum)
        = (t * (c * d / t) + c * d % t) +
            (t * (cs.map (fun c => c * d / t)).sum +
              (cs.map (fun c => c * d % t)).sum) := by ring
      _ = c * d + d * cs.sum := by rw [hdm, ih]
      _ = d * (c + cs.sum) := by ring

lemma sum_floored_le (counts : List ℕ) (d : ℕ) :
    (counts.map (fun c => c * d / counts.sum)).sum ≤ d := by
  rcases Nat.eq_zero_or_pos counts.sum with h0 | h0
  · have hz : (counts.map (fun c => c * d / counts.sum)).sum = 0 := by
      refine List.sum_eq_zero_iff.mpr (fun x hx => ?_)
      obtain ⟨c, hc, hcx⟩ := List.mem_map.mp hx
      rw [← hcx, List.sum_eq_zero_iff.mp h0 c hc]
      simp
    omega
  · have h := sum_div_add_mod counts d counts.sum
    have h3 : counts.sum * (counts.map (fun c => c * d / counts.sum)).sum ≤
        d * counts.sum := Nat.le.intro h
    rw [Nat.mul_comm d counts.sum] at h3
    exact Nat.le_of_mul_le_mul_left h3 h0

/-- Arithmetic core of the extras bound: if `t·S + R = (S + N)·t` and
`R ≤ k·(t-1)` with `t, k` positive, then `N ≤ k`. -/
lemma extras_bound_aux (t S R k N : ℕ) (h0 : 0 < t)
    (hmain : t * S + R = (S + N) * t) (hbound : R ≤ k * (t - 1)) :
    N ≤ k := by
  have hR : R = N * t := by
    have h1 : t * S + R = t * S + N * t := by rw [hmain]; ring
    exact Nat.add_left_cancel h1
  by_contra hcon
  push_neg at hcon
  have h1 : (k + 1) * t ≤ N * t := Nat.mul_le_mul_right t hcon
  have h3 : k * t + t ≤ N * t := by
    calc k * t + t = (k + 1) * t := by ring
      _ ≤ N * t := h1
  have h4 : N * t ≤ k * t := by
    calc N * t = R := hR.symm
      _ ≤ k * (t - 1) := hbound
      _ ≤ k * t := Nat.mul_le_mul_left k (Nat.sub_le t 1)
  have h5 : k * t + t ≤ k * t + 0 := by simpa using le_trans h3 h4
  have h6 : t ≤ 0 := Nat.le_of_add_le_add_left h5
  omega

lemma need_le_length (counts : List ℕ) (d : ℕ) (hd : d ≤ counts.sum) :
    d - (counts.map (fun c => c * d / counts.sum)).sum ≤ counts.length := by
  rcases Nat.eq_zero_or_pos counts.sum with h0 | h0
  · omega
  · have hmain := sum_div_add_mod counts d counts.sum
    have hrem : ∀ x ∈ counts.map (fun c => c * d % counts.sum),
        x ≤ counts.sum - 1 := by
      intro x hx
      obtain ⟨c, _, hcx⟩ := List.mem_map.mp hx
      rw [← hcx]
      exact Nat.le_sub_one_of_lt (Nat.mod_lt _ h0)
    have hbound := List.sum_le_card_nsmul _ _ hrem
    rw [List.length_map, smul_eq_mul] at hbound
    have hF := sum_floored_le counts d
    refine extras_bound_aux counts.sum
      ((counts.map (fun c => c * d / counts.sum)).sum)
      ((counts.map (fun c => c * d % counts.sum)).sum)
      counts.length _ h0 ?_ hbound
    rw [Nat.add_sub_cancel' hF]
    exact hmain

lemma applyExtras_sum (vs chosen : List ℕ) (i : ℕ) :
    (applyExtras vs chosen i).sum =
      vs.sum + (List.range' i vs.length).countP (fun j => chosen.contains j) := by
  induction vs generalizing i with
  | nil => simp [applyExtras]
  | cons v vs ih =>
    simp only [applyExtras, List.sum_cons, List.length_cons,
      List.range'_succ, List.countP_cons, ih (i + 1)]
    by_cases h : chosen.contains i <;> simp [h] <;> omega

lemma countP_range_eq_length (chosen : List ℕ) (k : ℕ)
    (hnd : chosen.Nodup) (hsub : ∀ j ∈ chosen, j < k) :
    (List.range k).countP (fun j => chosen.contains j) = chosen.length := by
  rw [List.countP_eq_length_filter]
  have hperm : List.Perm
      ((List.range k).filter (fun j => chosen.contains j)) chosen := by
    apply List.perm_of_nodup_nodup_toFinset_eq
      ((List.nodup_range k).filter _) hnd
    ext j
    simp only [List.mem_toFinset, List.mem_filter, List.mem_range]
    constructor
    · intro hj
      simpa using hj.2
    · intro hj
      exact ⟨hsub j hj, by simpa using hj⟩
  exact hperm.length_eq

lemma sorted_enum_fst_facts (rems : List ℕ) (need : ℕ) :
    (((List.insertionSort remGE rems.enum).take need).map Prod.fst).Nodup ∧
    (∀ j ∈ ((List.insertionSort remGE rems.enum).take need).map Prod.fst,
      j < rems.length) ∧
    (need ≤ rems.length →
      (((List.insertionSort remGE rems.enum).take need).map Prod.fst).length =
        need) := by
  have hperm : List.Perm (List.insertionSort remGE rems.enum) rems.enum :=
    List.perm_insertionSort _ _
  have hfst : List.Perm ((List.insertionSort remGE rems.enum).map Prod.fst)
      (List.range rems.length) := by
    have := hperm.map Prod.fst
    rwa [List.enum_map_fst] at this
  have hnodup : ((List.insertionSort remGE rems.enum).map Prod.fst).Nodup :=
    hfst.nodup_iff.mpr (List.nodup_range _)
  have hmapTake :
      ((List.insertionSort remGE rems.enum).take need).map Prod.fst =
        ((List.insertionSort remGE rems.enum).map Prod.fst).take need :=
    List.map_take _ _ _
  refine ⟨?_, ?_, ?_⟩
  · rw [hmapTake]
    exact hnodup.sublist (List.take_sublist _ _)
  · intro j hj
    rw [hmapTake] at hj
    have hj2 : j ∈ (List.insertionSort remGE rems.enum).map Prod.fst :=
      (List.take_sublist _ _).mem hj
    exact List.mem_range.mp (hfst.mem_iff.mp hj2)
  · intro hneed
    rw [hmapTake, List.length_take]
    have hlen : ((List.insertionSort remGE rems.enum).map Prod.fst).length =
        rems.length := by
      rw [List.length_map, hperm.length_eq, List.enum_length]
    omega

/-- The allocation of `_approximate_mode` distributes exactly `d`
draws when `d` does not exceed the total count. -/
lemma approximateMode_sum (counts : List ℕ) (d : ℕ)
    (hd : d ≤ counts.sum) : (approximateMode counts d).sum = d := by
  simp only [approximateMode]
  rw [applyExtras_sum, List.length_map, ← List.range_eq_range']
  have hF := sum_floored_le counts d
  have hneed := need_le_length counts d hd
  obtain ⟨hnd, hsub, hlen⟩ := sorted_enum_fst_facts
    (counts.map (fun c => c * d % counts.sum))
    (d - (counts.map (fun c => c * d / counts.sum)).sum)
  rw [List.length_map] at hsub hlen
  rw [countP_range_eq_length _ _ hnd hsub, hlen hneed]
  omega

lemma applyExtras_le (chosen : List ℕ) {vs ws : List ℕ}
    (h : List.Forall₂ (fun v w => v + 1 ≤ w) vs ws) :
    ∀ i, List.Forall₂ (· ≤ ·) (applyExtras vs chosen i) ws := by
  induction h with
  | nil => intro i; exact List.Forall₂.nil
  | cons hvw htail ih =>
    intro i
    refine List.Forall₂.cons ?_ (ih (i + 1))
    by_cases hmem : i ∈ chosen <;> simp [applyExtras, hmem] <;> omega

/-- No class is allocated more train rows than it has rows, provided
every class occurs at least once and at most all rows are drawn. -/
lemma approximateMode_le (counts : List ℕ) (d : ℕ)
    (h1 : ∀ c ∈ counts, 1 ≤ c) (hd : d ≤ counts.sum) :
    List.Forall₂ (· ≤ ·) (approximateMode counts d) counts := by
  rcases eq_or_lt_of_le hd with he | hlt
  · rw [approximateMode_self counts d he.symm]
    exact List.forall₂_same.mpr (fun x _ => le_refl x)
  · have h0 : 0 < counts.sum := lt_of_le_of_lt (Nat.zero_le d) hlt
    simp only [approximateMode]
    apply applyExtras_le
    rw [List.forall₂_map_left_iff]
    refine List.forall₂_same.mpr (fun c hc => ?_)
    have hflt : c * d / counts.sum < c := by
      rw [Nat.div_lt_iff_lt_mul h0]
      exact Nat.mul_lt_mul_of_le_of_lt (le_refl c) hlt (h1 c hc)
    omega

/-- Positions (counting from `i`) of the elements of `l` equal to `c`,
in ascending order. -/
def idxWhere {α : Type} [DecidableEq α] (c : α) : List α → ℕ → List ℕ
  | [], _ => []
  | a :: as, i =>
    if a = c then i :: idxWhere c as (i + 1) else idxWhere c as (i + 1)

/-- Numpy `np.where(y == c)[0]`: ascending row positions of class `c`. -/
def classIdx {α : Type} [DecidableEq α] (y : List α) (c : α) : List ℕ :=
  idxWhere c y 0

section ClassIdxLemmas

variable {α : Type} [DecidableEq α]

lemma idxWhere_length (c : α) (l : List α) (i : ℕ) :
    (idxWhere c l i).length = l.count c := by
  induction l generalizing i with
  | nil => rfl
  | cons a as ih =>
    by_cases h : a = c <;>
      simp [idxWhere, h, ih, List.count_cons]

lemma idxWhere_ge (c : α) (l : List α) (i : ℕ) :
    ∀ j ∈ idxWhere c l i, i ≤ j := by
  induction l generalizing i with
  | nil => intro j hj; simp [idxWhere] at hj
  | cons a as ih =>
    intro j hj
    by_cases h : a = c
    · simp only [idxWhere, if_pos h] at hj
      rcases List.mem_cons.mp hj with rfl | hj2
      · exact le_refl j
      · exact le_trans (Nat.le_succ i) (ih (i + 1) j hj2)
    · simp only [idxWhere, if_neg h] at hj
      exact le_trans (Nat.le_succ i) (ih (i + 1) j hj)

lemma idxWhere_nodup (c : α) (l : List α) (i : ℕ) :
    (idxWhere c l i).Nodup := by
  induction l generalizing i with
  | nil => exact List.nodup_nil
  | cons a as ih =>
    by_cases h : a = c
    · simp only [idxWhere, if_pos h]
      refine List.Nodup.cons ?_ (ih (i + 1))
      intro hmem
      have := idxWhere_ge c as (i + 1) i hmem
      omega
    · simp only [idxWhere, if_neg h]
      exact ih (i + 1)

lemma idxWhere_spec (c : α) (l : List α) (i : ℕ) :
    ∀ j ∈ idxWhere c l i, j - i < l.length ∧ ∀ d, l.getD (j - i) d = c := by
  induction l generalizing i with
  | nil => intro j hj; simp [idxWhere] at hj
  | cons a as ih =>
    intro j hj
    by_cases h : a = c
    · simp only [idxWhere, if_pos h] at hj
      rcases List.mem_cons.mp hj with rfl | hj2
      · refine ⟨by simp, fun d => ?_⟩
        simp [h]
      · have hge := idxWhere_ge c as (i + 1) j hj2
        obtain ⟨hlt, hget⟩ := ih (i + 1) j hj2
        refine ⟨by simp; omega, fun d => ?_⟩
        have hji : j - i = (j - (i + 1)) + 1 := by omega
        rw [hji, List.getD_cons_succ]
        exact hget d
    · simp only [idxWhere, if_neg h] at hj
      have hge := idxWhere_ge c as (i + 1) j hj
      obtain ⟨hlt, hget⟩ := ih (i + 1) j hj
      refine ⟨by simp; omega, fun d => ?_⟩
      have hji : j - i = (j - (i + 1)) + 1 := by omega
      rw [hji, List.getD_cons_succ]
      exact hget d

lemma idxWhere_complete (l : List α) (i : ℕ) :
    ∀ (k : ℕ), k < l.length → ∀ d : α,
      (i + k) ∈ idxWhere (l.getD k d) l i := by
  induction l generalizing i with
  | nil => intro k hk; simp at hk
  | cons a as ih =>
    intro k hk d
    cases k with
    | zero =>
      simp only [List.getD_cons_zero, Nat.add_zero, idxWhere, if_pos rfl]
      exact List.mem_cons_self _ _
    | succ m =>
      have hmem := ih (i + 1) m (by simpa using hk) d
      have harith : i + (m + 1) = (i + 1) + m := by omega
      rw [List.getD_cons_succ, harith]
      by_cases hac : a = as.getD m d
      · simp only [idxWhere, if_pos hac]
        exact List.mem_cons_of_mem _ hmem
      · simp only [idxWhere, if_neg hac]
        exact hmem

/-- Row positions of a class are in range and carry that class. -/
lemma classIdx_spec (y : List α) (c : α) :
    ∀ j ∈ classIdx y c, j < y.length ∧ ∀ d, y.getD j d = c := by
  intro j hj
  have := idxWhere_spec c y 0 j hj
  simpa using this

lemma classIdx_length (y : List α) (c : α) :
    (classIdx y c).length = y.count c :=
  idxWhere_length c y 0

lemma classIdx_nodup (y : List α) (c : α) : (classIdx y c).Nodup :=
  idxWhere_nodup c y 0

lemma classIdx_complete (y : List α) (j : ℕ) (hj : j < y.length) (d : α) :
    j ∈ classIdx y (y.getD j d) := by
  have := idxWhere_complete y 0 j hj d
  simpa using this

end ClassIdxLemmas

section SplitLemmas

variable {α : Type} [LinearOrder α] [DecidableEq α]

/-- The per-class index lists of the distinct classes flatten to a
permutation of all row positions. -/
lemma classIdx_flatten_perm (y : List α) :
    List.Perm ((npUnique y).map (classIdx y)).flatten
      (List.range y.length) := by
  apply List.perm_of_nodup_nodup_toFinset_eq
  · rw [List.nodup_flatten]
    constructor
    · intro l hl
      obtain ⟨c, _, rfl⟩ := List.mem_map.mp hl
      exact classIdx_nodup y c
    · rw [List.pairwise_map]
      refine (npUnique_nodup y).imp ?_
      intro c c' hne j hj hj'
      have h1 := (classIdx_spec y c j hj).2 c
      have h2 := (classIdx_spec y c' j hj').2 c
      exact hne (h1.symm.trans h2)
  · exact List.nodup_range _
  · ext j
    simp only [List.mem_toFinset, List.mem_flatten, List.mem_range,
      List.mem_map]
    constructor
    · rintro ⟨l, ⟨c, _, rfl⟩, hj⟩
      exact (classIdx_spec y c j hj).1
    · intro hj
      have hd : y.getD j (y.get ⟨j, hj⟩) = y.get ⟨j, hj⟩ :=
        List.getD_eq_getElem y _ hj
      refine ⟨classIdx y (y.getD j (y.get ⟨j, hj⟩)),
        ⟨y.getD j (y.get ⟨j, hj⟩), ?_, rfl⟩,
        classIdx_complete y j hj _⟩
      rw [mem_npUnique, hd]
      exact List.get_mem y j hj

/-- The class counts of the distinct classes sum to the row count. -/
lemma classIdx_counts_sum (y : List α) :
    ((npUnique y).map (fun c => (classIdx y c).length)).sum = y.length := by
  have h := (classIdx_flatten_perm y).length_eq
  rw [List.length_flatten, List.map_map, List.length_range] at h
  simpa [Function.comp] using h

lemma flatten_perm_of_forall₂ {L₁ L₂ : List (List ℕ)}
    (h : List.Forall₂ List.Perm L₁ L₂) :
    List.Perm L₁.flatten L₂.flatten := by
  induction h with
  | nil => exact List.Perm.refl _
  | cons hab htail ih =>
    simp only [List.flatten_cons]
    exact hab.append ih

/-- Splitting every list of `L` at its cut point and flattening the
fronts and the backs separately is a permutation of flattening `L`
whole. -/
lemma flatten_take_drop_perm (L : List (List ℕ × ℕ)) :
    List.Perm ((L.map (fun p => p.1.take p.2)).flatten ++
        (L.map (fun p => p.1.drop p.2)).flatten)
      ((L.map Prod.fst).flatten) := by
  induction L with
  | nil => simp
  | cons hd tl ih =>
    simp only [List.map_cons, List.flatten_cons]
    have h1 : (hd.1.take hd.2 ++ (tl.map (fun p => p.1.take p.2)).flatten) ++
        (hd.1.drop hd.2 ++ (tl.map (fun p => p.1.drop p.2)).flatten) =
        hd.1.take hd.2 ++ ((tl.map (fun p => p.1.take p.2)).flatten ++
          (hd.1.drop hd.2 ++ (tl.map (fun p => p.1.drop p.2)).flatten)) := by
      simp [List.append_assoc]
    rw [h1]
    have h2 : List.Perm
        ((tl.map (fun p => p.1.take p.2)).flatten ++
          (hd.1.drop hd.2 ++ (tl.map (fun p => p.1.drop p.2)).flatten))
        (hd.1.drop hd.2 ++ ((tl.map (fun p => p.1.take p.2)).flatten ++
          (tl.map (fun p => p.1.drop p.2)).flatten)) :=
      List.perm_append_comm_assoc _ _ _
    have h3 : List.Perm
        (hd.1.drop hd.2 ++ ((tl.map (fun p => p.1.take p.2)).flatten ++
          (tl.map (fun p => p.1.drop p.2)).flatten))
        (hd.1.drop hd.2 ++ (tl.map Prod.fst).flatten) :=
      ih.append_left _
    have h4 := (h2.trans h3).append_left (hd.1.take hd.2)
    refine h4.trans ?_
    rw [← List.append_assoc, List.take_append_drop]

lemma sum_le_of_forall₂_le {l₁ l₂ : List ℕ}
    (h : List.Forall₂ (· ≤ ·) l₁ l₂) : l₁.sum ≤ l₂.sum := by
  induction h with
  | nil => exact le_refl 0
  | cons hab _ ih => simp only [List.sum_cons]; omega

lemma sum_zipWith_sub {l₁ l₂ : List ℕ}
    (h : List.Forall₂ (· ≤ ·) l₂ l₁) :
    (List.zipWith (· - ·) l₁ l₂).sum = l₁.sum - l₂.sum := by
  induction h with
  | nil => rfl
  | cons hab htail ih =>
    simp only [List.zipWith_cons_cons, List.sum_cons, ih]
    have := sum_le_of_forall₂_le htail
    omega

lemma forall₂_zip_sub {f : α → ℕ} :
    ∀ (cs : List α) (ns : List ℕ),
      List.Forall₂ (· ≤ ·) ns (cs.map f) →
      List.Forall₂ (fun c nt => nt.1 ≤ f c ∧ nt.2 = f c - nt.1) cs
        (ns.zip (List.zipWith (· - ·) (cs.map f) ns)) := by
  intro cs
  induction cs with
  | nil =>
    intro ns h
    cases h
    exact List.Forall₂.nil
  | cons c cs ih =>
    intro ns h
    rcases h with _ | ⟨hn, htail⟩
    exact List.Forall₂.cons ⟨by assumption, rfl⟩ (ih _ htail)

end SplitLemmas

/-- Sklearn `StratifiedShuffleSplit._iter_indices` followed by
`train_test_split`: per class, a permuted copy of the class's row
positions contributes its first `n_c` entries to the train partition
and the next `t_c` to the test partition; both partitions are then
shuffled once more.  `rng` stands for the permutations drawn from
`np.random` seeded with `random_state=42`. -/
def stratSplitIdx {α : Type} [LinearOrder α] [DecidableEq α]
    (rng : List ℕ → List ℕ) (y : List α) (nTrain nTest : ℕ) :
    List ℕ × List ℕ :=
  let classes := npUnique y
  let counts := classes.map (fun c => (classIdx y c).length)
  let alloc := splitCounts counts nTrain nTest
  let picks := classes.zip (alloc.1.zip alloc.2)
  (rng (picks.map (fun p => (rng (classIdx y p.1)).take p.2.1)).flatten,
   rng (picks.map (fun p =>
     ((rng (classIdx y p.1)).drop p.2.1).take p.2.2)).flatten)

/-- Core of claim C3: the two index lists produced by the stratified
split are, taken together, a permutation of all row positions. -/
lemma stratSplitIdx_perm_range {α : Type} [LinearOrder α] [DecidableEq α]
    (y : List α) (rng : List ℕ → List ℕ)
    (hr : ∀ l, List.Perm (rng l) l) :
    List.Perm
      ((stratSplitIdx rng y (nTrainOf y.length) (nTestOf y.length)).1 ++
        (stratSplitIdx rng y (nTrainOf y.length) (nTestOf y.length)).2)
      (List.range y.length) := by
  have hcsum : ((npUnique y).map (fun c => (classIdx y c).length)).sum =
      y.length := classIdx_counts_sum y
  have h1 : ∀ c ∈ (npUnique y).map (fun c => (classIdx y c).length),
      1 ≤ c := by
    intro c hc
    obtain ⟨cl, hcl, rfl⟩ := List.mem_map.mp hc
    rw [classIdx_length]
    exact List.count_pos_iff.mpr (mem_npUnique.mp hcl)
  have hnTr_le : nTrainOf y.length ≤
      ((npUnique y).map (fun c => (classIdx y c).length)).sum := by
    rw [hcsum]
    unfold nTrainOf
    omega
  set counts := (npUnique y).map (fun c => (classIdx y c).length)
    with hcounts
  set trC := approximateMode counts (nTrainOf y.length) with htrCdef
  have htrsum : trC.sum = nTrainOf y.length :=
    approximateMode_sum _ _ hnTr_le
  have htrle : List.Forall₂ (· ≤ ·) trC counts :=
    approximateMode_le _ _ h1 hnTr_le
  have hremsum : (List.zipWith (· - ·) counts trC).sum =
      nTestOf y.length := by
    rw [sum_zipWith_sub htrle, htrsum, hcsum]
    unfold nTrainOf nTestOf
    omega
  have hteC : approximateMode (List.zipWith (· - ·) counts trC)
      (nTestOf y.length) = List.zipWith (· - ·) counts trC :=
    approximateMode_self _ _ hremsum
  have hsplit : splitCounts counts (nTrainOf y.length) (nTestOf y.length) =
      (trC, List.zipWith (· - ·) counts trC) := by
    simp only [splitCounts, ← htrCdef, hteC]
  set teC := List.zipWith (· - ·) counts trC with hteCdef
  set picks := (npUnique y).zip (trC.zip teC) with hpicksdef
  have hF : List.Forall₂
      (fun c nt => nt.1 ≤ (classIdx y c).length ∧
        nt.2 = (classIdx y c).length - nt.1)
      (npUnique y) (trC.zip teC) :=
    forall₂_zip_sub (npUnique y) trC htrle
  have hpt : ∀ p ∈ picks, p.2.1 ≤ (classIdx y p.1).length ∧
      p.2.2 = (classIdx y p.1).length - p.2.1 := by
    intro p hp
    obtain ⟨a, b⟩ := p
    exact List.forall₂_zip hF hp
  have hlenzip : (npUnique y).length ≤ (trC.zip teC).length := by
    rw [List.length_zip, htrCdef, approximateMode_length, hteCdef,
      List.length_zipWith, approximateMode_length, hcounts,
      List.length_map]
    omega
  simp only [stratSplitIdx, ← hcounts, hsplit, ← hpicksdef]
  -- the final reshuffles preserve the multiset
  refine ((hr _).append (hr _)).trans ?_
  -- the test picks take all remaining rows of each class
  have hteRaw : picks.map
      (fun p => ((rng (classIdx y p.1)).drop p.2.1).take p.2.2) =
      picks.map (fun p => (rng (classIdx y p.1)).drop p.2.1) := by
    refine List.map_congr_left (fun p hp => ?_)
    obtain ⟨hle2, heq⟩ := hpt p hp
    apply List.take_of_length_le
    rw [List.length_drop, (hr (classIdx y p.1)).length_eq, heq]
  rw [hteRaw]
  have htrL : picks.map (fun p => (rng (classIdx y p.1)).take p.2.1) =
      (picks.map (fun p => (rng (classIdx y p.1), p.2.1))).map
        (fun q => q.1.take q.2) := by
    rw [List.map_map]
    rfl
  have hteL : picks.map (fun p => (rng (classIdx y p.1)).drop p.2.1) =
      (picks.map (fun p => (rng (classIdx y p.1), p.2.1))).map
        (fun q => q.1.drop q.2) := by
    rw [List.map_map]
    rfl
  rw [htrL, hteL]
  refine (flatten_take_drop_perm _).trans ?_
  rw [List.map_map]
  have hfst : ((picks.map (fun p => (rng (classIdx y p.1), p.2.1))).map
      Prod.fst) = picks.map (fun p => rng (classIdx y p.1)) := by
    rw [List.map_map]
    rfl
  have hperm2 : List.Perm
      ((picks.map (fun p => rng (classIdx y p.1))).flatten)
      ((picks.map (fun p => classIdx y p.1)).flatten) := by
    apply flatten_perm_of_forall₂
    rw [List.forall₂_map_left_iff, List.forall₂_map_right_iff]
    exact List.forall₂_same.mpr (fun p _ => hr (classIdx y p.1))
  have hstep : (Prod.fst ∘ fun p : α × ℕ × ℕ =>
      (rng (classIdx y p.1), p.2.1)) = fun p => rng (classIdx y p.1) :=
    rfl
  rw [hstep]
  refine hperm2.trans ?_
  have hmapfst : picks.map (fun p => classIdx y p.1) =
      (npUnique y).map (classIdx y) := by
    have hcomp : picks.map (fun p => classIdx y p.1) =
        (picks.map Prod.fst).map (classIdx y) := by
      rw [List.map_map]
      rfl
    rw [hcomp, hpicksdef, List.map_fst_zip _ _ hlenzip]
  rw [hmapfst]
  exact classIdx_flatten_perm y

/-- Claim C3: the train/test split is a true partition of the rows of
the encoded dataset: train and test indices together are a permutation
of all row positions, each partition has no duplicate row, the
partitions are disjoint, and a row position belongs to the dataset
exactly when it lands in one of the two partitions. -/
theorem split_is_partition {α : Type} [LinearOrder α] [DecidableEq α]
    (y : List α) (rng : List ℕ → List ℕ)
    (hr : ∀ l, List.Perm (rng l) l) (tr te : List ℕ)
    (hs : stratSplitIdx rng y (nTrainOf y.length) (nTestOf y.length) =
      (tr, te)) :
    List.Perm (tr ++ te) (List.range y.length) ∧
    tr.Nodup ∧ te.Nodup ∧ (∀ i ∈ tr, i ∉ te) ∧
    (∀ i, i < y.length ↔ (i ∈ tr ∨ i ∈ te)) := by
  have hmain := stratSplitIdx_perm_range y rng hr
  rw [hs] at hmain
  have hnd : (tr ++ te).Nodup :=
    hmain.nodup_iff.mpr (List.nodup_range _)
  rw [List.nodup_append] at hnd
  obtain ⟨hnd1, hnd2, hdisj⟩ := hnd
  refine ⟨hmain, hnd1, hnd2, fun i hi => hdisj hi, fun i => ?_⟩
  rw [← List.mem_range (n := y.length), ← hmain.mem_iff, List.mem_append]

section CountLemmas

variable {α : Type} [DecidableEq α]

lemma count_add_count_le (l : List α) (a b : α) (hab : a ≠ b) :
    l.count a + l.count b ≤ l.length := by
  induction l with
  | nil => simp
  | cons x xs ih =>
    by_cases hxa : x = a <;> by_cases hxb : x = b
    · exact absurd (hxa.symm.trans hxb) hab
    · simp [List.count_cons, hxa, hxb, hab]
      omega
    · simp [List.count_cons, hxa, hxb, Ne.symm hab]
      omega
    · simp [List.count_cons, hxa, hxb]
      omega

lemma mem_pair_of_count_eq (l : List α) (a b : α) (hab : a ≠ b)
    (h : l.count a + l.count b = l.length) : ∀ v ∈ l, v = a ∨ v = b := by
  induction l with
  | nil => intro v hv; simp at hv
  | cons x xs ih =>
    intro v hv
    have hle := count_add_count_le xs a b hab
    by_cases hxa : x = a <;> by_cases hxb : x = b
    · exact absurd (hxa.symm.trans hxb) hab
    · rcases List.mem_cons.mp hv with rfl | hv2
      · exact Or.inl hxa
      · simp [List.count_cons, hxa, hxb, hab] at h
        exact ih (by omega) v hv2
    · rcases List.mem_cons.mp hv with rfl | hv2
      · exact Or.inr hxb
      · simp [List.count_cons, hxa, hxb, Ne.symm hab] at h
        exact ih (by omega) v hv2
    · exfalso
      simp [List.count_cons, hxa, hxb] at h
      omega

end CountLemmas

/-- Rows picked from a single class's index list all carry that class;
counting any label in the picked labels gives either the pick size or
zero. -/
lemma count_map_pick {y : List ℚ} {c : ℚ} {A : List ℕ}
    (hsub : ∀ j ∈ A, j ∈ classIdx y c) (c' : ℚ) :
    (A.map (fun i => y.getD i 0)).count c' =
      if c' = c then A.length else 0 := by
  by_cases h : c' = c
  · subst h
    rw [if_pos rfl]
    have : ∀ x ∈ A.map (fun i => y.getD i 0), c' = x := by
      intro x hx
      obtain ⟨j, hj, rfl⟩ := List.mem_map.mp hx
      exact ((classIdx_spec y c' j (hsub j hj)).2 0).symm
    rw [List.count_eq_length.mpr this, List.length_map]
  · rw [if_neg h]
    rw [List.count_eq_zero]
    intro hmem
    obtain ⟨j, hj, hjx⟩ := List.mem_map.mp hmem
    exact h (hjx ▸ (classIdx_spec y c j (hsub j hj)).2 0)

/-- On the reference input the distinct classes are `0` and `1`. -/
lemma npUnique_ref (y : List ℚ) (hlen : y.length = 10127)
    (hc0 : y.count 0 = 8500) (hc1 : y.count 1 = 1627) :
    npUnique y = [0, 1] := by
  have hab : (0 : ℚ) ≠ 1 := by norm_num
  have hall : ∀ v ∈ y, v = 0 ∨ v = 1 :=
    mem_pair_of_count_eq y 0 1 hab (by rw [hc0, hc1, hlen])
  have h0 : (0 : ℚ) ∈ y := List.count_pos_iff.mp (by rw [hc0]; norm_num)
  have h1 : (1 : ℚ) ∈ y := List.count_pos_iff.mp (by rw [hc1]; norm_num)
  have hperm : List.Perm (npUnique y) [0, 1] := by
    apply List.perm_of_nodup_nodup_toFinset_eq (npUnique_nodup y)
      (by simp)
    ext v
    simp only [List.mem_toFinset, mem_npUnique, List.mem_cons,
      List.mem_singleton, List.not_mem_nil, or_false]
    constructor
    · intro hv
      exact hall v hv
    · rintro (rfl | rfl) <;> assumption
  refine List.eq_of_perm_of_sorted hperm (npUnique_sorted y) ?_
  simp [List.sorted_cons]

/-- Counting a label over picks from two single-class pools. -/
lemma count_append_picks {y : List ℚ} {A B : List ℕ} {cA cB : ℚ}
    (hA : ∀ j ∈ A, j ∈ classIdx y cA) (hB : ∀ j ∈ B, j ∈ classIdx y cB)
    (c' : ℚ) :
    ((A ++ B).map (fun i => y.getD i 0)).count c' =
      (if c' = cA then A.length else 0) +
        (if c' = cB then B.length else 0) := by
  rw [List.map_append, List.count_append, count_map_pick hA,
    count_map_pick hB]

/-- Central fact for claims C1 and C8: on any input with the reference
length and target distribution, the stratified split allocates exactly
6799/1302 train rows and 1701/325 test rows to the two classes. -/
lemma reference_split_label_counts (y : List ℚ) (rng : List ℕ → List ℕ)
    (hr : ∀ l, List.Perm (rng l) l) (hlen : y.length = 10127)
    (hc0 : y.count 0 = 8500) (hc1 : y.count 1 = 1627) :
    ((stratSplitIdx rng y (nTrainOf y.length)
        (nTestOf y.length)).1.map (fun i => y.getD i 0)).count 0 = 6799 ∧
    ((stratSplitIdx rng y (nTrainOf y.length)
        (nTestOf y.length)).1.map (fun i => y.getD i 0)).count 1 = 1302 ∧
    ((stratSplitIdx rng y (nTrainOf y.length)
        (nTestOf y.length)).2.map (fun i => y.getD i 0)).count 0 = 1701 ∧
    ((stratSplitIdx rng y (nTrainOf y.length)
        (nTestOf y.length)).2.map (fun i => y.getD i 0)).count 1 = 325 := by
  have hclasses := npUnique_ref y hlen hc0 hc1
  have hcounts : List.map (fun c => (classIdx y c).length)
      ([0, 1] : List ℚ) = [8500, 1627] := by
    simp [classIdx_length, hc0, hc1]
  have hsplitc : splitCounts [8500, 1627] (nTrainOf 10127) (nTestOf 10127) =
      ([6799, 1302], [1701, 325]) := by decide
  have hlen0 : (rng (classIdx y 0)).length = 8500 := by
    rw [(hr (classIdx y 0)).length_eq, classIdx_length, hc0]
  have hlen1 : (rng (classIdx y 1)).length = 1627 := by
    rw [(hr (classIdx y 1)).length_eq, classIdx_length, hc1]
  have hsubTr0 : ∀ j ∈ (rng (classIdx y 0)).take 6799,
      j ∈ classIdx y 0 := fun j hj =>
    (hr _).mem_iff.mp (List.mem_of_mem_take hj)
  have hsubTr1 : ∀ j ∈ (rng (classIdx y 1)).take 1302,
      j ∈ classIdx y 1 := fun j hj =>
    (hr _).mem_iff.mp (List.mem_of_mem_take hj)
  have hsubTe0 : ∀ j ∈ ((rng (classIdx y 0)).drop 6799).take 1701,
      j ∈ classIdx y 0 := fun j hj =>
    (hr _).mem_iff.mp (List.mem_of_mem_drop (List.mem_of_mem_take hj))
  have hsubTe1 : ∀ j ∈ ((rng (classIdx y 1)).drop 1302).take 325,
      j ∈ classIdx y 1 := fun j hj =>
    (hr _).mem_iff.mp (List.mem_of_mem_drop (List.mem_of_mem_take hj))
  have hlTr0 : ((rng (classIdx y 0)).take 6799).length = 6799 := by
    rw [List.length_take, hlen0]
    omega
  have hlTr1 : ((rng (classIdx y 1)).take 1302).length = 1302 := by
    rw [List.length_take, hlen1]
    omega
  have hlTe0 : (((rng (classIdx y 0)).drop 6799).take 1701).length =
      1701 := by
    rw [List.length_take, List.length_drop, hlen0]
    omega
  have hlTe1 : (((rng (classIdx y 1)).drop 1302).take 325).length =
      325 := by
    rw [List.length_take, List.length_drop, hlen1]
    omega
  simp only [stratSplitIdx, hclasses, hcounts, hlen, hsplitc,
    List.zip_cons_cons, List.zip_nil_right, List.zip_nil_left,
    List.map_cons, List.map_nil, List.flatten_cons, List.flatten_nil,
    List.append_nil]
  refine ⟨?_, ?_, ?_, ?_⟩
  · rw [((hr _).map (fun i => y.getD i 0)).count_eq,
      count_append_picks hsubTr0 hsubTr1, hlTr0]
    norm_num
  · rw [((hr _).map (fun i => y.getD i 0)).count_eq,
      count_append_picks hsubTr0 hsubTr1, hlTr1]
    norm_num
  · rw [((hr _).map (fun i => y.getD i 0)).count_eq,
      count_append_picks hsubTe0 hsubTe1, hlTe0]
    norm_num
  · rw [((hr _).map (fun i => y.getD i 0)).count_eq,
      count_append_picks hsubTe0 hsubTe1, hlTe1]
    norm_num

/-- Claim C1: on the reference input of 10,127 rows with target
distribution 8,500 negative / 1,627 positive, the pipeline's stratified
split with test fraction 0.2 (and any seed-derived permutations)
produces a train target distribution of exactly 6,799/1,302 and a test
target distribution of exactly 1,701/325. -/
theorem reference_split_distribution (y : List ℚ)
    (rng : List ℕ → List ℕ) (hr : ∀ l, List.Perm (rng l) l)
    (hlen : y.length = 10127) (hc0 : y.count 0 = 8500)
    (hc1 : y.count 1 = 1627) :
    ((stratSplitIdx rng y (nTrainOf y.length)
        (nTestOf y.length)).1.map (fun i => y.getD i 0)).count 0 = 6799 ∧
    ((stratSplitIdx rng y (nTrainOf y.length)
        (nTestOf y.length)).1.map (fun i => y.getD i 0)).count 1 = 1302 ∧
    ((stratSplitIdx rng y (nTrainOf y.length)
        (nTestOf y.length)).2.map (fun i => y.getD i 0)).count 0 = 1701 ∧
    ((stratSplitIdx rng y (nTrainOf y.length)
        (nTestOf y.length)).2.map (fun i => y.getD i 0)).count 1 = 325 :=
  reference_split_label_counts y rng hr hlen hc0 hc1

/-- The reference target column: 8,500 zeros then 1,627 ones. -/
def refY : List ℚ := List.replicate 8500 0 ++ List.replicate 1627 1

/-- Witness for C1 at the concrete reference column with the identity
permutation. -/
theorem reference_split_distribution_witness :
    ((stratSplitIdx id refY (nTrainOf refY.length)
        (nTestOf refY.length)).1.map
          (fun i => refY.getD i 0)).count 0 = 6799 ∧
    ((stratSplitIdx id refY (nTrainOf refY.length)
        (nTestOf refY.length)).1.map
          (fun i => refY.getD i 0)).count 1 = 1302 ∧
    ((stratSplitIdx id refY (nTrainOf refY.length)
        (nTestOf refY.length)).2.map
          (fun i => refY.getD i 0)).count 0 = 1701 ∧
    ((stratSplitIdx id refY (nTrainOf refY.length)
        (nTestOf refY.length)).2.map
          (fun i => refY.getD i 0)).count 1 = 325 :=
  reference_split_distribution refY id (fun l => List.Perm.refl l)
    (by norm_num [refY])
    (by norm_num [refY, List.count_append, List.count_replicate])
    (by norm_num [refY, List.count_append, List.count_replicate])

/-- Claim C8: on the reference input, for every distinct target class
the fraction of that class's rows assigned to the test partition is
within `1/class_count` of the configured test fraction `1/5`. -/
theorem stratification_tolerance (y : List ℚ)
    (rng : List ℕ → List ℕ) (hr : ∀ l, List.Perm (rng l) l)
    (hlen : y.length = 10127) (hc0 : y.count 0 = 8500)
    (hc1 : y.count 1 = 1627) :
    ∀ c ∈ npUnique y,
      |(((stratSplitIdx rng y (nTrainOf y.length)
          (nTestOf y.length)).2.map (fun i => y.getD i 0)).count c : ℚ) /
          (y.count c : ℚ) - 1 / 5| ≤ 1 / (y.count c : ℚ) := by
  intro c hc
  obtain ⟨h1, h2, h3, h4⟩ :=
    reference_split_label_counts y rng hr hlen hc0 hc1
  rw [npUnique_ref y hlen hc0 hc1] at hc
  rcases List.mem_cons.mp hc with rfl | hc2
  · rw [h3, hc0]
    rw [abs_le]
    constructor <;> norm_num
  · rcases List.mem_cons.mp hc2 with rfl | hc3
    · rw [h4, hc1]
      rw [abs_le]
      constructor <;> norm_num
    · simp at hc3

/-- Witness for C8 at the concrete reference column, class `0`. -/
theorem stratification_tolerance_witness :
    |(((stratSplitIdx id refY (nTrainOf refY.length)
        (nTestOf refY.length)).2.map
          (fun i => refY.getD i 0)).count 0 : ℚ) /
        (refY.count 0 : ℚ) - 1 / 5| ≤ 1 / (refY.count 0 : ℚ) := by
  have hlen : refY.length = 10127 := by norm_num [refY]
  have hc0 : refY.count 0 = 8500 := by
    norm_num [refY, List.count_append, List.count_replicate]
  have hc1 : refY.count 1 = 1627 := by
    norm_num [refY, List.count_append, List.count_replicate]
  exact stratification_tolerance refY id (fun l => List.Perm.refl l)
    hlen hc0 hc1 0 (by rw [npUnique_ref refY hlen hc0 hc1]; simp)

/-- Witness for C3 on the concrete class column `[0, 1, 1, 0, 1]` with
the identity permutation: train `[0, 3, 1, 2]`, test `[4]`. -/
theorem split_is_partition_witness :
    List.Perm ([0, 3, 1, 2] ++ [4]) (List.range 5) ∧
    ([0, 3, 1, 2] : List ℕ).Nodup ∧ ([4] : List ℕ).Nodup ∧
    (∀ i ∈ ([0, 3, 1, 2] : List ℕ), i ∉ ([4] : List ℕ)) ∧
    (∀ i, i < 5 ↔ (i ∈ ([0, 3, 1, 2] : List ℕ) ∨ i ∈ ([4] : List ℕ))) :=
  split_is_partition [0, 1, 1, 0, 1] id (fun l => List.Perm.refl l)
    [0, 3, 1, 2] [4] (by decide)

/-! ## The full pipeline and persistence -/

/-- The identifier and leakage columns dropped in Step 3. -/
def droppedCols : List String :=
  ["CLIENTNUM",
   "Naive_Bayes_Classifier_Attrition_Flag_Card_Category_Contacts_Count_12_mon_Dependent_count_Education_Level_Months_Inactive_12_mon_1",
   "Naive_Bayes_Classifier_Attrition_Flag_Card_Category_Contacts_Count_12_mon_Dependent_count_Education_Level_Months_Inactive_12_mon_2"]

/-- The target column name. -/
def targetCol : String := "Attrition_Flag"

/-- Step 4: `df["Attrition_Flag"] = df["Attrition_Flag"].apply(lambda x:
1 if x == "Attrited Customer" else 0)`.  Reading a missing column is a
`KeyError`; a numeric column would compare unequal to the string
literal and encode everything to `0`. -/
def applyTargetEncoding (f : Frame) : Except String Frame :=
  if (colNames f).contains targetCol then
    .ok (f.map (fun c =>
      if c.name = targetCol then
        ⟨c.name, .nums (match c.data with
          | .strs vs => vs.map (fun v => (encodeTargetVal v : ℚ))
          | .nums vs => vs.map (fun _ => 0))⟩
      else c))
  else .error "KeyError: Attrition_Flag"

/-- Step 6, `X = df.drop("Attrition_Flag", axis=1)` (the target is present at
this point, the pipeline having already encoded it). -/
def featureFrame (f : Frame) : Frame :=
  f.filter (fun c => ¬ c.name = targetCol)

/-- Step 6, `y = df["Attrition_Flag"]` as a value vector. -/
def targetValues (f : Frame) : List ℚ := colValues f targetCol

/-- Row selection (`DataFrame.iloc` with an index list) on every
column. -/
def selectRows (f : Frame) (idx : List ℕ) : Frame :=
  f.map (fun c =>
    match c.data with
    | .nums vs => ⟨c.name, .nums (idx.map (fun i => vs.getD i 0))⟩
    | .strs vs => ⟨c.name, .strs (idx.map (fun i => vs.getD i ""))⟩)

/-- The in-memory results of one pipeline run. -/
structure PipelineOutput where
  xTrain : Frame
  xTest : Frame
  yTrain : List ℚ
  yTest : List ℚ
  trainIdx : List ℕ
  testIdx : List ℕ
deriving Repr

/-- The whole notebook pipeline (Steps 2-7): strip the header, drop the
identifier/leakage columns, encode the target, label-encode the
categorical columns on the full table, split features from the target,
stratified-split the rows, and scale with train-fitted statistics.
`sq` abstracts `np.sqrt`; `rng` abstracts the permutations drawn from
the generator seeded with `random_state=42`. -/
def runPipeline (sq : ℚ → ℚ) (rng : List ℕ → List ℕ) (raw : Frame) :
    Except String PipelineOutput := do
  let f0 := stripHeader raw
  let f1 ← dropColumns f0 droppedCols
  let f2 ← applyTargetEncoding f1
  let f3 := encodeCategoricals f2
  let xAll := featureFrame f3
  let y := targetValues f3
  let s := stratSplitIdx rng y (nTrainOf y.length) (nTestOf y.length)
  let xtr := selectRows xAll s.1
  let xte := selectRows xAll s.2
  let names := numericCols xAll
  pure { xTrain := scaleTrain sq names xtr,
         xTest := scaleTest sq names xtr xte,
         yTrain := s.1.map (fun i => y.getD i 0),
         yTest := s.2.map (fun i => y.getD i 0),
         trainIdx := s.1, testIdx := s.2 }

/-- Cell rendering for `to_csv`. -/
def cellStrings : ColData → List String
  | .strs vs => vs
  | .nums vs => vs.map (fun q => toString q)

/-- One CSV line. -/
def csvRow (cells : List String) : String := String.intercalate "," cells

/-- Number of table rows of a frame. -/
def frameRowCount (f : Frame) : ℕ :=
  (f.map (fun c => (cellStrings c.data).length)).foldr max 0

/-- Pandas `to_csv(index=False)`: a header row of the column names followed by
the data rows, with no index column. -/
def toCsv (f : Frame) : String :=
  String.intercalate "\n"
    (csvRow (colNames f) ::
      (List.range (frameRowCount f)).map (fun i =>
        csvRow (f.map (fun c => (cellStrings c.data).getD i ""))))

/-- A label vector is persisted as a one-column frame headed by the
target column name (`Series.to_csv` keeps the series name). -/
def labelFrame (vs : List ℚ) : Frame := [⟨targetCol, .nums vs⟩]

/-- The contents of the four persisted files of Step 9:
`X_train_clean.csv`, `X_test_clean.csv`, `y_train_clean.csv`,
`y_test_clean.csv`. -/
def artifacts (out : PipelineOutput) : String × String × String × String :=
  (toCsv out.xTrain, toCsv out.xTest,
   toCsv (labelFrame out.yTrain), toCsv (labelFrame out.yTest))

/-- Claim C4: the pipeline is deterministic under fixed configuration.
Two runs with the same seed-derived permutations, the same abstracted
square root, and the same input frame return the same result; in
particular, on success, the row-level train/test partition assignment
and all four persisted artifacts are identical. -/
theorem pipeline_deterministic (sq₁ sq₂ : ℚ → ℚ)
    (rng₁ rng₂ : List ℕ → List ℕ) (raw₁ raw₂ : Frame)
    (hsq : sq₁ = sq₂) (hrng : rng₁ = rng₂) (hraw : raw₁ = raw₂) :
    runPipeline sq₁ rng₁ raw₁ = runPipeline sq₂ rng₂ raw₂ ∧
    ∀ o₁ o₂, runPipeline sq₁ rng₁ raw₁ = .ok o₁ →
      runPipeline sq₂ rng₂ raw₂ = .ok o₂ →
      o₁.trainIdx = o₂.trainIdx ∧ o₁.testIdx = o₂.testIdx ∧
      artifacts o₁ = artifacts o₂ := by
  subst hsq hrng hraw
  refine ⟨rfl, fun o₁ o₂ h₁ h₂ => ?_⟩
  rw [h₁] at h₂
  cases h₂
  exact ⟨rfl, rfl, rfl⟩

/-- A small raw frame with the reference schema, for instantiating the
pipeline theorems. -/
def rawDemo : Frame :=
  [⟨"CLIENTNUM", .nums [768805383, 818770008]⟩,
   ⟨"Naive_Bayes_Classifier_Attrition_Flag_Card_Category_Contacts_Count_12_mon_Dependent_count_Education_Level_Months_Inactive_12_mon_1",
     .nums [0, 0]⟩,
   ⟨"Naive_Bayes_Classifier_Attrition_Flag_Card_Category_Contacts_Count_12_mon_Dependent_count_Education_Level_Months_Inactive_12_mon_2",
     .nums [1, 1]⟩,
   ⟨"Attrition_Flag", .strs ["Attrited Customer", "Existing Customer"]⟩,
   ⟨"Customer_Age", .nums [45, 49]⟩,
   ⟨"Gender", .strs ["M", "M"]⟩]

/-- The successful pipeline output on the demo frame. -/
def demoOut : PipelineOutput :=
  (runPipeline id id rawDemo).toOption.getD ⟨[], [], [], [], [], []⟩

lemma dropColumns_ok_imp {f g : Frame} {names : List String}
    (h : dropColumns f names = .ok g) : g = keptCols f names := by
  unfold dropColumns at h
  split at h
  · injection h with h2
    exact h2.symm
  · exact Except.noConfusion h

lemma applyTargetEncoding_ok_imp {f g : Frame}
    (h : applyTargetEncoding f = .ok g) : colNames g = colNames f := by
  unfold applyTargetEncoding at h
  split at h
  · injection h with h2
    rw [← h2]
    unfold colNames
    rw [List.map_map]
    refine List.map_congr_left (fun c _ => ?_)
    by_cases hc : c.name = targetCol <;> simp [hc]
  · exact Except.noConfusion h

lemma colNames_encodeCategoricals (f : Frame) :
    colNames (encodeCategoricals f) = colNames f := by
  unfold colNames encodeCategoricals
  rw [List.map_map]
  refine List.map_congr_left (fun c _ => ?_)
  cases hd : c.data <;> simp [hd]

lemma colNames_selectRows (f : Frame) (idx : List ℕ) :
    colNames (selectRows f idx) = colNames f := by
  unfold colNames selectRows
  rw [List.map_map]
  refine List.map_congr_left (fun c _ => ?_)
  cases hd : c.data <;> simp [hd]

lemma colNames_scaleTrain (sq : ℚ → ℚ) (names : List String) (f : Frame) :
    colNames (scaleTrain sq names f) = colNames f := by
  unfold colNames scaleTrain
  rw [List.map_map]
  refine List.map_congr_left (fun c _ => ?_)
  by_cases hn : c.name ∈ names <;> cases hd : c.data <;>
    simp [hn, hd]

lemma colNames_scaleTest (sq : ℚ → ℚ) (names : List String)
    (ftr fte : Frame) :
    colNames (scaleTest sq names ftr fte) = colNames fte := by
  unfold colNames scaleTest
  rw [List.map_map]
  refine List.map_congr_left (fun c _ => ?_)
  by_cases hn : c.name ∈ names <;> cases hd : c.data <;>
    simp [hn, hd]

lemma mem_colNames_featureFrame {f : Frame} {n : String}
    (h : n ∈ colNames (featureFrame f)) : n ∈ colNames f := by
  obtain ⟨c, hc, rfl⟩ := List.mem_map.mp h
  exact List.mem_map.mpr ⟨c, List.mem_of_mem_filter hc, rfl⟩

lemma targetCol_not_mem_featureFrame (f : Frame) :
    targetCol ∉ colNames (featureFrame f) := by
  intro hmem
  obtain ⟨c, hc, hcn⟩ := List.mem_map.mp hmem
  have hp := List.of_mem_filter hc
  simp at hp
  exact hp hcn

/-- Claim C9: in the persisted artifacts, no dropped column name
appears in any of the four output files' header rows, and the target
column never appears in either persisted feature file's header while
appearing as exactly one column in each persisted label file's
header. -/
theorem persisted_headers_spec (sq : ℚ → ℚ) (rng : List ℕ → List ℕ)
    (raw : Frame) (out : PipelineOutput)
    (h : runPipeline sq rng raw = .ok out) :
    (∀ n ∈ droppedCols,
      n ∉ colNames out.xTrain ∧ n ∉ colNames out.xTest ∧
      n ∉ colNames (labelFrame out.yTrain) ∧
      n ∉ colNames (labelFrame out.yTest)) ∧
    targetCol ∉ colNames out.xTrain ∧
    targetCol ∉ colNames out.xTest ∧
    (colNames (labelFrame out.yTrain)).count targetCol = 1 ∧
    (colNames (labelFrame out.yTest)).count targetCol = 1 := by
  have hdropped_ne : ∀ n ∈ droppedCols, n ≠ targetCol := by decide
  simp only [runPipeline] at h
  cases hdrop : dropColumns (stripHeader raw) droppedCols with
  | error e =>
    rw [hdrop] at h
    exact Except.noConfusion h
  | ok f1 =>
    rw [hdrop] at h
    simp only [bind, Except.bind] at h
    cases htgt : applyTargetEncoding f1 with
    | error e =>
      rw [htgt] at h
      exact Except.noConfusion h
    | ok f2 =>
      rw [htgt] at h
      simp only [pure, Except.pure] at h
      injection h with h2
      subst h2
      have hA : ∀ n ∈ droppedCols, n ∉ colNames f1 := by
        rw [dropColumns_ok_imp hdrop]
        exact fun n hn => not_mem_colNames_keptCols _ _ n hn
      have hB : colNames f2 = colNames f1 := applyTargetEncoding_ok_imp htgt
      have hX : ∀ n, n ∈ colNames (featureFrame (encodeCategoricals f2)) →
          n ∈ colNames f1 := by
        intro n hn
        have := mem_colNames_featureFrame hn
        rwa [colNames_encodeCategoricals, hB] at this
      refine ⟨fun n hn => ⟨?_, ?_, ?_, ?_⟩, ?_, ?_, ?_, ?_⟩
      · simp only [colNames_scaleTrain, colNames_selectRows]
        intro hmem
        exact hA n hn (hX n hmem)
      · simp only [colNames_scaleTest, colNames_selectRows]
        intro hmem
        exact hA n hn (hX n hmem)
      · simp only [labelFrame, colNames, List.map_cons, List.map_nil]
        intro hmem
        rcases List.mem_cons.mp hmem with he | he
        · exact hdropped_ne n hn he
        · simp at he
      · simp only [labelFrame, colNames, List.map_cons, List.map_nil]
        intro hmem
        rcases List.mem_cons.mp hmem with he | he
        · exact hdropped_ne n hn he
        · simp at he
      · simp only [colNames_scaleTrain, colNames_selectRows]
        exact targetCol_not_mem_featureFrame _
      · simp only [colNames_scaleTest, colNames_selectRows]
        exact targetCol_not_mem_featureFrame _
      · simp [labelFrame, colNames]
      · simp [labelFrame, colNames]

/-- Witness for C9: the demo run succeeds and its artifacts' headers
satisfy the claim at concrete values. -/
theorem persisted_headers_spec_witness :
    runPipeline id id rawDemo = .ok demoOut ∧
    targetCol ∉ colNames demoOut.xTrain ∧
    "CLIENTNUM" ∉ colNames demoOut.xTrain ∧
    (colNames (labelFrame demoOut.yTrain)).count targetCol = 1 := by
  have hok : runPipeline id id rawDemo = .ok demoOut := rfl
  obtain ⟨hd, ht1, ht2, hc1, hc2⟩ :=
    persisted_headers_spec id id rawDemo demoOut hok
  exact ⟨hok, ht1, (hd "CLIENTNUM" (by decide)).1, hc1⟩

/-- Witness for C4: two identically configured runs on the demo frame
agree, and so do their artifacts. -/
theorem pipeline_deterministic_witness :
    runPipeline id id rawDemo = runPipeline id id rawDemo ∧
    artifacts demoOut = artifacts demoOut :=
  ⟨(pipeline_deterministic id id id id rawDemo rawDemo rfl rfl rfl).1,
   ((pipeline_deterministic id id id id rawDemo rawDemo rfl rfl rfl).2
      demoOut demoOut rfl rfl).2.2⟩

end Churn
